import Mathlib

/-
Verification of the stability-lasso variable-selection library
(`stab_lasso.py`).  Floating-point arrays are modelled as lists of real
numbers (exact arithmetic), boolean masks as predicates on feature
indices, and the external numpy/sklearn/statsmodels calls that the
library delegates to are modelled as explicit oracle parameters whose
contracts appear as hypotheses.  Every definition below is translated
from the corresponding Python function, keeping its name and the order
of its computation steps.
-/

namespace StabLasso

/-- Model of `np.clip(x, lo, hi)`, which computes
`np.minimum(hi, np.maximum(x, lo))`. -/
noncomputable def npClip (x lo hi : ℝ) : ℝ := min (max x lo) hi

/-- Model of `np.sort` on a 1-d float array: sort ascending. -/
noncomputable def npSort (l : List ℝ) : List ℝ := l.insertionSort (· ≤ ·)

/-- Model of `arr.min()` on a 1-d array.  numpy raises on an empty array;
here the junk value 0 is returned, and claims that could reach the empty
case carry nonemptiness hypotheses. -/
noncomputable def listMin : List ℝ → ℝ
  | [] => 0
  | x :: xs => xs.foldl min x

/-- Model of `np.max(arr)` on a 1-d array, with junk value 0 on the
empty array, as for `listMin`. -/
noncomputable def listMax : List ℝ → ℝ
  | [] => 0
  | x :: xs => xs.foldl max x

/-- Model of `arr / np.arange(1, p + 1)`: entry `i` is divided by
`i + 1`. -/
noncomputable def rankDiv (l : List ℝ) : List ℝ :=
  l.enum.map (fun ia => ia.2 / ((ia.1 : ℝ) + 1))

/-- Model of `np.where(arr <= q)[0][-1]`: the last index whose entry is
`≤ q`, or `none` when every entry is `> q` (the `(arr > q).all()`
branch of `select_model_fdr`). -/
noncomputable def lastLe (q : ℝ) : List ℝ → Option ℕ
  | [] => none
  | x :: xs =>
    match lastLe q xs with
    | some k => some (k + 1)
    | none => if x ≤ q then some 0 else none

/-- Model of the backwards running minimum
`for i in range(p - 1, 0, -1): b[i-1] = min(b[i-1], b[i])`:
entry `j` of the result is the minimum of entries `j..p-1` of the
input. -/
noncomputable def sufMin : List ℝ → List ℝ
  | [] => []
  | x :: xs =>
    match sufMin xs with
    | [] => [x]
    | y :: ys => min x y :: y :: ys

/-- Comparison by second component, used to model `np.argsort`. -/
def sndLe (a b : ℕ × ℝ) : Prop := a.2 ≤ b.2

noncomputable instance : DecidableRel sndLe :=
  fun a b => inferInstanceAs (Decidable (a.2 ≤ b.2))

instance : IsTotal (ℕ × ℝ) sndLe := ⟨fun a b => le_total a.2 b.2⟩

instance : IsTrans (ℕ × ℝ) sndLe := ⟨fun _ _ _ h1 h2 => le_trans h1 h2⟩

/-- Model of `np.argsort` paired with the sorted values: the enumerated
list `[(0, l 0), (1, l 1), ...]` sorted by value (a stable
determinization of numpy's unspecified tie order; the bounds produced
from it are tie-insensitive).  First components give `pvalues_argsort`,
second components give `pvalues[pvalues_argsort]`. -/
noncomputable def sortEnum (l : List ℝ) : List (ℕ × ℝ) :=
  l.enum.insertionSort sndLe

/-- Model of the fancy-indexing scatter `out = np.zeros(p);
out[idx] = vals`: position `idx[j]` receives `vals[j]`, the remaining
positions keep 0. -/
noncomputable def scatter (p : ℕ) (idx : List ℕ) (vals : List ℝ) : List ℝ :=
  (List.range p).map (fun i => vals.getD (idx.indexOf i) 0)

/-- The selection bound of `select_model_fdr`: 0 on the
`(pvalues_sorted > q).all()` branch, otherwise
`pvalues_sorted[h] * (h + 1)` at the last qualifying sorted index `h`. -/
noncomputable def bhBound (q : ℝ) (pvalues_sorted : List ℝ) : ℝ :=
  match lastLe q pvalues_sorted with
  | none => 0
  | some h => pvalues_sorted.getD h 0 * ((h : ℝ) + 1)

theorem bhBound_of_none {q : ℝ} {ps : List ℝ} (h : lastLe q ps = none) :
    bhBound q ps = 0 := by simp [bhBound, h]

theorem bhBound_of_some {q : ℝ} {ps : List ℝ} {k : ℕ}
    (h : lastLe q ps = some k) :
    bhBound q ps = ps.getD k 0 * ((k : ℝ) + 1) := by simp [bhBound, h]

/-- Translation of `select_model_fdr` (stab_lasso.py lines 233-261),
returned as the selection predicate `fun i => pvalues[i] <= bound` on
feature indices. -/
noncomputable def select_model_fdr (pvalues : List ℝ) (q : ℝ)
    (independent : Bool) (normalize : Bool) (i : ℕ) : Prop :=
  let p := pvalues.length
  let pvalues_sorted := rankDiv (npSort pvalues)
  let q1 := if independent then q else q / Real.log p
  let q2 := if normalize then q1 / p else q1
  pvalues.getD i 0 ≤ bhBound q2 pvalues_sorted

/-- Translation of `select_model_fdr_bounds` (stab_lasso.py lines
264-293). -/
noncomputable def select_model_fdr_bounds (pvalues : List ℝ)
    (independent : Bool) (normalize : Bool) : List ℝ :=
  let p := pvalues.length
  let psort := sortEnum pvalues
  let pvalues_sorted := rankDiv (psort.map Prod.snd)
  let bounds_sorted := sufMin pvalues_sorted
  let bounds := scatter p (psort.map Prod.fst) bounds_sorted
  let bounds1 := if normalize then bounds.map (fun x => x * (p : ℝ)) else bounds
  let bounds2 :=
    if independent then bounds1
    else bounds1.map (fun x => x * Real.log (p : ℝ))
  bounds2.map (fun x => npClip x 0 1)

/-! Basic facts about the sorting helpers. -/

theorem npSort_sorted (l : List ℝ) : (npSort l).Sorted (· ≤ ·) :=
  List.sorted_insertionSort _ l

theorem npSort_perm (l : List ℝ) : (npSort l).Perm l :=
  List.perm_insertionSort _ l

theorem npSort_length (l : List ℝ) : (npSort l).length = l.length :=
  (npSort_perm l).length_eq

theorem sortEnum_perm (l : List ℝ) : (sortEnum l).Perm l.enum :=
  List.perm_insertionSort _ _

theorem sortEnum_sorted (l : List ℝ) : (sortEnum l).Sorted sndLe :=
  List.sorted_insertionSort _ _

theorem sortEnum_length (l : List ℝ) : (sortEnum l).length = l.length :=
  (sortEnum_perm l).length_eq.trans List.enum_length

/-- The value component of the sorted enumeration is the sorted list. -/
theorem sortEnum_map_snd (l : List ℝ) :
    (sortEnum l).map Prod.snd = npSort l := by
  apply List.eq_of_perm_of_sorted (r := (· ≤ ·))
  · exact (((sortEnum_perm l).map Prod.snd).trans
      (by rw [List.enum_map_snd])).trans (npSort_perm l).symm
  · exact List.Pairwise.map _ (fun a b h => h) (sortEnum_sorted l)
  · exact npSort_sorted l

/-- Each pair in the sorted enumeration records an index of `l` together
with the entry of `l` at that index. -/
theorem sortEnum_mem (l : List ℝ) {iv : ℕ × ℝ} (h : iv ∈ sortEnum l) :
    iv.1 < l.length ∧ l.getD iv.1 0 = iv.2 := by
  have h2 : iv ∈ l.enum := (sortEnum_perm l).mem_iff.mp h
  obtain ⟨n, hn, hget⟩ := List.mem_iff_getElem.mp h2
  have hl : n < l.length := by
    have := List.enum_length (l := l); omega
  rw [List.getElem_enum] at hget
  constructor
  · rw [← hget]; exact hl
  · rw [← hget]
    exact List.getD_eq_getElem l 0 hl

/-- The index components of the sorted enumeration form a permutation of
`range l.length`; in particular they are pairwise distinct. -/
theorem sortEnum_map_fst_perm (l : List ℝ) :
    ((sortEnum l).map Prod.fst).Perm (List.range l.length) := by
  have := (sortEnum_perm l).map Prod.fst
  rwa [List.enum_map_fst] at this

theorem sortEnum_map_fst_nodup (l : List ℝ) :
    ((sortEnum l).map Prod.fst).Nodup :=
  ((sortEnum_map_fst_perm l).symm.nodup (List.nodup_range _))

theorem rankDiv_length (l : List ℝ) : (rankDiv l).length = l.length := by
  simp [rankDiv, List.enum_length]

theorem rankDiv_getD (l : List ℝ) {i : ℕ} (h : i < l.length) :
    (rankDiv l).getD i 0 = l.getD i 0 / ((i : ℝ) + 1) := by
  have hlen : i < (rankDiv l).length := by rw [rankDiv_length]; exact h
  rw [List.getD_eq_getElem _ _ hlen, List.getD_eq_getElem _ _ h]
  simp only [rankDiv, List.getElem_map, List.getElem_enum]

theorem sufMin_length (l : List ℝ) : (sufMin l).length = l.length := by
  induction l with
  | nil => rfl
  | cons x xs ih =>
    rw [sufMin]
    cases h : sufMin xs with
    | nil => rw [h] at ih; simp [← ih]
    | cons y ys => rw [h] at ih; simp [← ih]

/-- The backwards running minimum at position `j` is below every entry at
position `k ≥ j`. -/
theorem sufMin_le (l : List ℝ) {j k : ℕ} (hjk : j ≤ k) (hk : k < l.length) :
    (sufMin l).getD j 0 ≤ l.getD k 0 := by
  induction l generalizing j k with
  | nil => simp at hk
  | cons x xs ih =>
    rw [sufMin]
    cases h : sufMin xs with
    | nil =>
      have hxs : xs.length = 0 := by
        have := sufMin_length xs; rw [h] at this; simpa using this.symm
      have hk0 : k = 0 := by simp [hxs] at hk; omega
      have hj0 : j = 0 := by omega
      subst hk0; subst hj0; simp
    | cons y ys =>
      cases j with
      | zero =>
        cases k with
        | zero => simp
        | succ k =>
          have hk2 : k < xs.length := by simpa using hk
          have := ih (j := 0) (k := k) (Nat.zero_le _) hk2
          rw [h] at this
          calc (min x y :: y :: ys).getD 0 0 = min x y := rfl
            _ ≤ y := min_le_right _ _
            _ = (y :: ys).getD 0 0 := rfl
            _ ≤ xs.getD k 0 := this
            _ = (x :: xs).getD (k + 1) 0 := rfl
      | succ j =>
        cases k with
        | zero => omega
        | succ k =>
          have hk2 : k < xs.length := by simpa using hk
          have := ih (j := j) (k := k) (by omega) hk2
          rw [h] at this
          simpa using this

/-- The backwards running minimum at a valid position `j` is attained at
some entry with index `k ≥ j`. -/
theorem sufMin_exists (l : List ℝ) {j : ℕ} (hj : j < l.length) :
    ∃ k, j ≤ k ∧ k < l.length ∧ (sufMin l).getD j 0 = l.getD k 0 := by
  induction l generalizing j with
  | nil => simp at hj
  | cons x xs ih =>
    rw [sufMin]
    cases h : sufMin xs with
    | nil =>
      have hxs : xs.length = 0 := by
        have := sufMin_length xs; rw [h] at this; simpa using this.symm
      have hj0 : j = 0 := by simp [hxs] at hj; omega
      subst hj0
      exact ⟨0, le_refl _, by simp, by simp⟩
    | cons y ys =>
      have hxs : 0 < xs.length := by
        have := sufMin_length xs; rw [h] at this; simp at this; omega
      cases j with
      | zero =>
        rcases le_total x y with hxy | hxy
        · exact ⟨0, le_refl _, by simp, by simp [min_eq_left hxy]⟩
        · obtain ⟨k, _, hk2, hk3⟩ := ih (j := 0) hxs
          rw [h] at hk3
          refine ⟨k + 1, by omega, by simpa using hk2, ?_⟩
          calc (min x y :: y :: ys).getD 0 0 = min x y := rfl
            _ = y := min_eq_right hxy
            _ = (y :: ys).getD 0 0 := rfl
            _ = (x :: xs).getD (k + 1) 0 := by rw [hk3]; rfl
      | succ j =>
        have hj2 : j < xs.length := by simpa using hj
        obtain ⟨k, hk1, hk2, hk3⟩ := ih hj2
        rw [h] at hk3
        exact ⟨k + 1, by omega, by simpa using hk2, by simpa using hk3⟩

/-- Membership characterization of the `(arr > q).all()` branch. -/
theorem lastLe_eq_none (q : ℝ) (l : List ℝ) :
    lastLe q l = none ↔ ∀ x ∈ l, ¬ x ≤ q := by
  induction l with
  | nil => simp [lastLe]
  | cons x xs ih =>
    rw [lastLe]
    cases hx : lastLe q xs with
    | some k =>
      simp only []
      constructor
      · intro h; exact absurd h (by simp)
      · intro h
        have : lastLe q xs = none := ih.mpr (fun y hy => h y (by simp [hy]))
        rw [hx] at this; exact absurd this (by simp)
    | none =>
      by_cases hxq : x ≤ q
      · simp only [if_pos hxq]
        constructor
        · intro h; exact absurd h (by simp)
        · intro h; exact absurd hxq (h x (by simp))
      · simp only [if_neg hxq]
        constructor
        · intro _ y hy
          rcases List.mem_cons.mp hy with rfl | hy2
          · exact hxq
          · exact (ih.mp hx) y hy2
        · intro _; trivial

/-- The `np.where(arr <= q)[0][-1]` index is a valid index whose entry is
`≤ q`, and every later entry is `> q`. -/
theorem lastLe_eq_some (q : ℝ) (l : List ℝ) {h : ℕ}
    (hs : lastLe q l = some h) :
    h < l.length ∧ l.getD h 0 ≤ q ∧
      ∀ j, h < j → j < l.length → ¬ l.getD j 0 ≤ q := by
  induction l generalizing h with
  | nil => simp [lastLe] at hs
  | cons x xs ih =>
    rw [lastLe] at hs
    cases hx : lastLe q xs with
    | some k =>
      rw [hx] at hs
      simp only [Option.some.injEq] at hs
      obtain ⟨hk1, hk2, hk3⟩ := ih hx
      refine ⟨by simp [← hs]; omega, by simpa [← hs] using hk2, ?_⟩
      intro j hj1 hj2
      subst hs
      cases j with
      | zero => omega
      | succ j =>
        have := hk3 j (by omega) (by simpa using hj2)
        simpa using this
    | none =>
      rw [hx] at hs
      by_cases hxq : x ≤ q
      · rw [if_pos hxq] at hs
        simp only [Option.some.injEq] at hs
        subst hs
        refine ⟨by simp, by simpa using hxq, ?_⟩
        intro j hj1 hj2
        cases j with
        | zero => omega
        | succ j =>
          have hjl : j < xs.length := by simpa using hj2
          have hjm : xs.getD j 0 ∈ xs := by
            rw [List.getD_eq_getElem _ _ hjl]
            exact List.getElem_mem _
          have := (lastLe_eq_none q xs).mp hx (xs.getD j 0) hjm
          simpa using this
      · rw [if_neg hxq] at hs; exact absurd hs (by simp)

theorem scatter_getD (p : ℕ) (idx : List ℕ) (vals : List ℝ) {i : ℕ}
    (hi : i < p) :
    (scatter p idx vals).getD i 0 = vals.getD (idx.indexOf i) 0 := by
  have hl : i < (scatter p idx vals).length := by
    simp [scatter, List.length_map, List.length_range]; exact hi
  rw [List.getD_eq_getElem _ _ hl]
  simp [scatter, List.getElem_map, List.getElem_range]

/-- The sorted position of original index `i` in the argsort: the `j`
with `pvalues_argsort[j] = i`. -/
noncomputable def rank (l : List ℝ) (i : ℕ) : ℕ :=
  ((sortEnum l).map Prod.fst).indexOf i

theorem rank_lt (l : List ℝ) {i : ℕ} (hi : i < l.length) :
    rank l i < l.length := by
  have hmem : i ∈ (sortEnum l).map Prod.fst :=
    (sortEnum_map_fst_perm l).mem_iff.mpr (List.mem_range.mpr hi)
  have := List.indexOf_lt_length.mpr hmem
  rwa [List.length_map, sortEnum_length] at this

/-- The sorted values at the rank of `i` recover the original entry:
`pvalues[argsort][rank i] = pvalues[i]`. -/
theorem npSort_getD_rank (l : List ℝ) {i : ℕ} (hi : i < l.length) :
    (npSort l).getD (rank l i) 0 = l.getD i 0 := by
  have hmem : i ∈ (sortEnum l).map Prod.fst :=
    (sortEnum_map_fst_perm l).mem_iff.mpr (List.mem_range.mpr hi)
  have hlt : rank l i < ((sortEnum l).map Prod.fst).length :=
    List.indexOf_lt_length.mpr hmem
  have hfst : ((sortEnum l).map Prod.fst)[rank l i] = i :=
    List.getElem_indexOf hlt
  have hlt2 : rank l i < (sortEnum l).length := by
    rwa [List.length_map] at hlt
  rw [List.getElem_map] at hfst
  have hpair : (sortEnum l)[rank l i] ∈ sortEnum l := List.getElem_mem _
  obtain ⟨_, hval⟩ := sortEnum_mem l hpair
  rw [hfst] at hval
  have h4 : ((sortEnum l).map Prod.snd).getD (rank l i) 0 =
      ((sortEnum l)[rank l i]).2 := by
    rw [List.getD_eq_getElem _ _ (by rw [List.length_map]; exact hlt2),
      List.getElem_map]
  calc (npSort l).getD (rank l i) 0
      = ((sortEnum l).map Prod.snd).getD (rank l i) 0 := by
        rw [sortEnum_map_snd]
    _ = ((sortEnum l)[rank l i]).2 := h4
    _ = l.getD i 0 := hval.symm

/-- Monotonicity of the sorted list in its index. -/
theorem npSort_getD_mono (l : List ℝ) {j k : ℕ} (hjk : j ≤ k)
    (hk : k < l.length) :
    (npSort l).getD j 0 ≤ (npSort l).getD k 0 := by
  rcases eq_or_lt_of_le hjk with rfl | hlt
  · exact le_refl _
  · have hk2 : k < (npSort l).length := by rwa [npSort_length]
    have hj2 : j < (npSort l).length := by omega
    rw [List.getD_eq_getElem _ _ hj2, List.getD_eq_getElem _ _ hk2]
    have := List.pairwise_iff_get.mp (npSort_sorted l)
      ⟨j, hj2⟩ ⟨k, hk2⟩ hlt
    simpa using this

theorem map_getD (f : ℝ → ℝ) (l : List ℝ) {i : ℕ} (hi : i < l.length) :
    (l.map f).getD i 0 = f (l.getD i 0) := by
  rw [List.getD_eq_getElem _ _ (by rwa [List.length_map]),
    List.getD_eq_getElem _ _ hi, List.getElem_map]

theorem getD_mem (l : List ℝ) {k : ℕ} (h : k < l.length) : l.getD k 0 ∈ l := by
  rw [List.getD_eq_getElem _ _ h]; exact List.getElem_mem _

/-- Comparing a `[0,1]`-clipped value against a level strictly between 0
and 1 is the same as comparing the unclipped value. -/
theorem npClip_le_iff {x q : ℝ} (hq0 : 0 < q) (hq1 : q < 1) :
    npClip x 0 1 ≤ q ↔ x ≤ q := by
  unfold npClip
  constructor
  · intro h
    rcases le_total 1 (max x 0) with h1 | h1
    · rw [min_eq_right h1] at h; linarith
    · rw [min_eq_left h1] at h
      exact le_trans (le_max_left x 0) h
  · intro h
    have hmax : max x 0 ≤ q := max_le h (le_of_lt hq0)
    exact le_trans (min_le_left _ _) hmax

theorem sufMin_getD_le_iff (t : List ℝ) {r : ℕ} (hr : r < t.length) (y : ℝ) :
    (sufMin t).getD r 0 ≤ y ↔ ∃ k, r ≤ k ∧ k < t.length ∧ t.getD k 0 ≤ y := by
  constructor
  · intro h
    obtain ⟨k, h1, h2, h3⟩ := sufMin_exists t hr
    exact ⟨k, h1, h2, h3 ▸ h⟩
  · rintro ⟨k, h1, h2, h3⟩
    exact le_trans (sufMin_le t h1 h2) h3

/-- Unfolded form of an entry of `select_model_fdr_bounds`: the running
minimum at the sorted position of `i`, rescaled by the `normalize` and
`independent` factors and clipped. -/
theorem select_model_fdr_bounds_getD (pvalues : List ℝ)
    (independent normalize : Bool) {i : ℕ} (hi : i < pvalues.length) :
    (select_model_fdr_bounds pvalues independent normalize).getD i 0 =
      npClip ((sufMin (rankDiv (npSort pvalues))).getD (rank pvalues i) 0 *
          (if normalize then (pvalues.length : ℝ) else 1) *
          (if independent then 1 else Real.log pvalues.length)) 0 1 := by
  have hms : (sortEnum pvalues).map Prod.snd = npSort pvalues :=
    sortEnum_map_snd pvalues
  have hlen1 : (sufMin (rankDiv (npSort pvalues))).length = pvalues.length := by
    rw [sufMin_length, rankDiv_length, npSort_length]
  have hscatlen : ∀ vals : List ℝ,
      (scatter pvalues.length ((sortEnum pvalues).map Prod.fst) vals).length
        = pvalues.length := by
    intro vals; simp [scatter]
  simp only [select_model_fdr_bounds, hms]
  cases independent <;> cases normalize <;>
    simp only [Bool.false_eq_true, if_true, if_false, reduceIte] <;>
    rw [map_getD] <;>
    try rw [map_getD] <;> try rw [map_getD]
  all_goals
    first
      | (rw [scatter_getD _ _ _ hi]
         simp only [rank, mul_one])
      | (simp only [hscatlen, List.length_map, hi])

/-- C1 (claim): for a length-p vector of p-values and a level q in (0,1),
with the same `independent` and `normalize` flags passed to both
functions, the mask returned by `select_model_fdr` selects exactly the
features whose `select_model_fdr_bounds` entry is at most q.  For the
dependent-features correction the statement requires `p ≥ 2`, since at
`p = 1` the source divides by `log(1) = 0` (an IEEE infinity, outside
the real-number model). -/
theorem select_model_fdr_iff_bounds_le (pvalues : List ℝ) (q : ℝ)
    (independent normalize : Bool) (i : ℕ)
    (hq0 : 0 < q) (hq1 : q < 1)
    (hp : independent = true ∨ 2 ≤ pvalues.length)
    (hi : i < pvalues.length) :
    (select_model_fdr pvalues q independent normalize i ↔
      (select_model_fdr_bounds pvalues independent normalize).getD i 0 ≤ q) := by
  have hn1 : 1 ≤ pvalues.length := by omega
  have hslen : (npSort pvalues).length = pvalues.length := npSort_length _
  have htlen : (rankDiv (npSort pvalues)).length = pvalues.length := by
    rw [rankDiv_length, hslen]
  have hrn : rank pvalues i < pvalues.length := rank_lt _ hi
  have hsr : (npSort pvalues).getD (rank pvalues i) 0 = pvalues.getD i 0 :=
    npSort_getD_rank _ hi
  have hcn0 : (0 : ℝ) < if normalize then (pvalues.length : ℝ) else 1 := by
    split
    · exact_mod_cast hn1
    · norm_num
  have hci0 : (0 : ℝ) < if independent then 1 else Real.log pvalues.length := by
    cases independent with
    | true => norm_num
    | false =>
      simp only [Bool.false_eq_true, if_false]
      rcases hp with h | h
      · exact absurd h (by simp)
      · exact Real.log_pos (by exact_mod_cast h)
  have hq2eq :
      (if normalize then
          (if independent then q else q / Real.log pvalues.length) /
            (pvalues.length : ℝ)
        else if independent then q else q / Real.log pvalues.length) =
      q / ((if normalize then (pvalues.length : ℝ) else 1) *
        (if independent then 1 else Real.log pvalues.length)) := by
    cases independent <;> cases normalize <;>
      simp [div_div, mul_comm, div_one]
  have hq2pos :
      0 < q / ((if normalize then (pvalues.length : ℝ) else 1) *
        (if independent then 1 else Real.log pvalues.length)) :=
    div_pos hq0 (mul_pos hcn0 hci0)
  rw [select_model_fdr_bounds_getD pvalues independent normalize hi,
    npClip_le_iff hq0 hq1, mul_assoc,
    ← le_div_iff₀ (mul_pos hcn0 hci0),
    sufMin_getD_le_iff _ (htlen ▸ hrn)]
  simp only [select_model_fdr]
  rw [hq2eq]
  rcases hcase :
      lastLe (q / ((if normalize then (pvalues.length : ℝ) else 1) *
        (if independent then 1 else Real.log pvalues.length)))
        (rankDiv (npSort pvalues)) with _ | h
  · -- every rank-divided sorted p-value exceeds the adjusted level:
    -- both the mask and the bounds threshold reject every feature
    rw [bhBound_of_none hcase]
    have hnone := (lastLe_eq_none _ _).mp hcase
    constructor
    · intro hle
      exfalso
      have h0t : 0 < (rankDiv (npSort pvalues)).length := by omega
      have ht0 : (rankDiv (npSort pvalues)).getD 0 0 =
          (npSort pvalues).getD 0 0 / (((0 : ℕ) : ℝ) + 1) :=
        rankDiv_getD _ (by omega)
      have hmin : (npSort pvalues).getD 0 0 ≤ pvalues.getD i 0 := by
        rw [← hsr]
        exact npSort_getD_mono _ (Nat.zero_le _) (hslen ▸ hrn)
      have hle2 : (rankDiv (npSort pvalues)).getD 0 0 ≤
          q / ((if normalize then (pvalues.length : ℝ) else 1) *
            (if independent then 1 else Real.log pvalues.length)) := by
        rw [ht0]
        have h00 : (npSort pvalues).getD 0 0 ≤ 0 := le_trans hmin hle
        have hcast : (npSort pvalues).getD 0 0 / (((0 : ℕ) : ℝ) + 1)
            = (npSort pvalues).getD 0 0 := by norm_num
        rw [hcast]
        exact le_trans h00 (le_of_lt hq2pos)
      exact hnone _ (getD_mem _ h0t) hle2
    · rintro ⟨k, _, hk2, hk3⟩
      exact absurd hk3 (hnone _ (getD_mem _ hk2))
  · -- a last qualifying sorted index h exists;  the bound is the h-th
    -- sorted p-value and selection is membership in the first h+1 ranks
    obtain ⟨hh1, hh2, hh3⟩ := lastLe_eq_some _ _ hcase
    rw [bhBound_of_some hcase]
    have hhs : h < (npSort pvalues).length := by omega
    have hth : (rankDiv (npSort pvalues)).getD h 0 =
        (npSort pvalues).getD h 0 / ((h : ℝ) + 1) := rankDiv_getD _ hhs
    have hbound : (rankDiv (npSort pvalues)).getD h 0 * ((h : ℝ) + 1) =
        (npSort pvalues).getD h 0 := by
      rw [hth]
      exact div_mul_cancel₀ _ (by positivity)
    rw [hbound, ← hsr]
    constructor
    · intro hle
      rcases le_or_lt (rank pvalues i) h with hrh | hhr
      · exact ⟨h, hrh, hh1, hh2⟩
      · -- ties: the entry at the sorted position of i equals the h-th
        -- sorted entry, so its own rank-divided value also qualifies
        have heq : (npSort pvalues).getD (rank pvalues i) 0 =
            (npSort pvalues).getD h 0 :=
          le_antisymm hle (npSort_getD_mono _ (le_of_lt hhr) (hslen ▸ hrn))
        have htr : (rankDiv (npSort pvalues)).getD (rank pvalues i) 0 ≤
            q / ((if normalize then (pvalues.length : ℝ) else 1) *
              (if independent then 1 else Real.log pvalues.length)) := by
          rw [rankDiv_getD _ (hslen ▸ hrn), heq]
          rcases le_or_lt ((npSort pvalues).getD h 0) 0 with hneg | hpos
          · have hle0 : (npSort pvalues).getD h 0 / ((rank pvalues i : ℝ) + 1)
                ≤ 0 := by
              apply div_nonpos_of_nonpos_of_nonneg hneg
              positivity
            exact le_trans hle0 (le_of_lt hq2pos)
          · calc (npSort pvalues).getD h 0 / ((rank pvalues i : ℝ) + 1)
                ≤ (npSort pvalues).getD h 0 / ((h : ℝ) + 1) := by
                  apply div_le_div_of_nonneg_left (le_of_lt hpos)
                  · positivity
                  · have : (h : ℝ) ≤ (rank pvalues i : ℝ) := by
                      exact_mod_cast le_of_lt hhr
                    linarith
              _ = (rankDiv (npSort pvalues)).getD h 0 := hth.symm
              _ ≤ _ := hh2
        exact ⟨rank pvalues i, le_refl _, htlen ▸ hrn, htr⟩
    · rintro ⟨k, hk1, hk2, hk3⟩
      have hkh : k ≤ h := by
        by_contra hc
        push_neg at hc
        exact hh3 k hc hk2 hk3
      exact npSort_getD_mono _ (le_trans hk1 hkh) (by omega)

/-- Witness for C1 at the concrete input `pvalues = [1/2]`, `q = 1/2`,
`independent = true`, `normalize = false`, feature 0. -/
theorem select_model_fdr_iff_bounds_le_witness :
    (0 : ℝ) < 1/2 ∧ (1/2 : ℝ) < 1 ∧
      (true = true ∨ 2 ≤ ([(1/2 : ℝ)]).length) ∧ 0 < ([(1/2 : ℝ)]).length ∧
      (select_model_fdr [(1/2 : ℝ)] (1/2) true false 0 ↔
        (select_model_fdr_bounds [(1/2 : ℝ)] true false).getD 0 0 ≤ 1/2) :=
  ⟨by norm_num, by norm_num, Or.inl rfl, by norm_num,
    select_model_fdr_iff_bounds_le [(1/2 : ℝ)] (1/2) true false 0
      (by norm_num) (by norm_num) (Or.inl rfl) (by norm_num)⟩

/-! Evaluation of the spec's literal Benjamini-Hochberg scenario:
`pvalues = [0.01, 0.02, 0.3, 0.5]`, `q = 0.1`, `independent = True`,
`normalize = False`. -/

theorem scenario_sort :
    npSort [(1/100 : ℝ), 1/50, 3/10, 1/2] = [1/100, 1/50, 3/10, 1/2] :=
  List.Sorted.insertionSort_eq (by norm_num [List.sorted_cons])

theorem scenario_rankDiv :
    rankDiv [(1/100 : ℝ), 1/50, 3/10, 1/2] = [1/100, 1/100, 1/10, 1/8] := by
  simp [rankDiv, List.enum, List.enumFrom]
  norm_num

/-- With `normalize = False` the level is not divided by p, so the last
sorted index whose rank-divided p-value is below `q = 0.1` is index 2
(`0.3 / 3 = 0.1 ≤ 0.1`), and the selection bound is `0.3`. -/
theorem scenario_bound :
    bhBound (1/10) (rankDiv (npSort [(1/100 : ℝ), 1/50, 3/10, 1/2]))
      = 3/10 := by
  rw [scenario_sort, scenario_rankDiv]
  have hl : lastLe (1/10 : ℝ) [(1/100 : ℝ), 1/100, 1/10, 1/8] = some 2 := by
    norm_num [lastLe]
  rw [bhBound_of_some hl]
  norm_num

/-- C3 (counterexample): contrary to the spec's hand computation, the
feature at index 2 (p-value 0.3) IS selected by
`select_model_fdr([0.01, 0.02, 0.3, 0.5], 0.1, independent=True,
normalize=False)`: with `normalize = False` the threshold for the sorted
p-value of rank k is `k * q` and `0.3 <= 3 * 0.1`. -/
theorem scenario_selects_index_2 :
    select_model_fdr [(1/100 : ℝ), 1/50, 3/10, 1/2] (1/10) true false 2 := by
  simp only [select_model_fdr, if_true, Bool.false_eq_true, if_false]
  rw [scenario_bound]
  norm_num

/-- C3 (amended): on the literal scenario the code selects exactly the
features at indices 0, 1 and 2, and rejects the feature at index 3. -/
theorem scenario_mask :
    select_model_fdr [(1/100 : ℝ), 1/50, 3/10, 1/2] (1/10) true false 0 ∧
    select_model_fdr [(1/100 : ℝ), 1/50, 3/10, 1/2] (1/10) true false 1 ∧
    select_model_fdr [(1/100 : ℝ), 1/50, 3/10, 1/2] (1/10) true false 2 ∧
    ¬ select_model_fdr [(1/100 : ℝ), 1/50, 3/10, 1/2] (1/10) true false 3 := by
  refine ⟨?_, ?_, ?_, ?_⟩ <;>
    simp only [select_model_fdr, if_true, Bool.false_eq_true, if_false] <;>
    rw [scenario_bound] <;> norm_num

/-- C10: every entry of `select_model_fdr_bounds` lies in `[0, 1]`: the
final `np.clip(bounds, 0., 1.)` guarantees it for every flag setting. -/
theorem select_model_fdr_bounds_mem_unit (pvalues : List ℝ)
    (independent normalize : Bool) {x : ℝ}
    (hx : x ∈ select_model_fdr_bounds pvalues independent normalize) :
    0 ≤ x ∧ x ≤ 1 := by
  simp only [select_model_fdr_bounds, List.mem_map] at hx
  obtain ⟨y, _, rfl⟩ := hx
  unfold npClip
  exact ⟨le_min (le_max_right y 0) zero_le_one, min_le_right _ _⟩

theorem bounds_singleton_eval :
    select_model_fdr_bounds [(1/2 : ℝ)] true true = [1/2] := by
  have h1 : sortEnum [(1/2 : ℝ)] = [(0, 1/2)] := by
    simp [sortEnum, List.enum, List.enumFrom, List.insertionSort]
  simp only [select_model_fdr_bounds, h1, List.map_cons, List.map_nil,
    List.length_cons, List.length_nil]
  have h2 : rankDiv [(1/2 : ℝ)] = [1/2] := by
    simp [rankDiv, List.enum, List.enumFrom]
  rw [h2]
  have h3 : sufMin [(1/2 : ℝ)] = [1/2] := by simp [sufMin]
  rw [h3]
  have h4 : scatter 1 [0] [(1/2 : ℝ)] = [1/2] := by
    simp [scatter, List.range_succ]
  rw [h4]
  simp [npClip]
  norm_num

/-- Witness for C10 at `pvalues = [1/2]`, both flags true. -/
theorem select_model_fdr_bounds_mem_unit_witness :
    ((1/2 : ℝ) ∈ select_model_fdr_bounds [(1/2 : ℝ)] true true) ∧
      (0 ≤ (1/2 : ℝ) ∧ (1/2 : ℝ) ≤ 1) :=
  have hmem : (1/2 : ℝ) ∈ select_model_fdr_bounds [(1/2 : ℝ)] true true := by
    rw [bounds_singleton_eval]; exact List.mem_singleton.mpr rfl
  ⟨hmem, select_model_fdr_bounds_mem_unit [(1/2 : ℝ)] true true hmem⟩

/-! Quantile aggregation across splits. -/

/-- Column `j` of an `n_split × p` float matrix stored as a list of
rows (the aggregations of stab_lasso.py operate per column / feature). -/
def column (M : List (List ℝ)) (j : ℕ) : List ℝ :=
  M.map (fun row => row.getD j 0)

/-- Translation of `pvalues_aggregation` (stab_lasso.py lines 210-220),
giving the aggregated value of feature `j`.  `int(gamma_min * n_split)`
is Python truncation, which is the floor for the nonnegative values in
use. -/
noncomputable def pvalues_aggregation (pvalues : List (List ℝ))
    (gamma_min : ℝ) (j : ℕ) : ℝ :=
  let n_split := pvalues.length
  let kmin := max 1 (Int.toNat ⌊gamma_min * (n_split : ℝ)⌋)
  let pvalues_sorted := (npSort (column pvalues j)).drop kmin
  let gamma_array := (List.range (n_split - kmin)).map
    (fun r => ((kmin + 1 + r : ℕ) : ℝ) / (n_split : ℝ))
  let divided := List.zipWith (fun x g => x / g) pvalues_sorted gamma_array
  let q := listMin divided
  let q1 := q * (1 - Real.log gamma_min)
  npClip q1 0 1

/-- Translation of `scores_aggregation` (stab_lasso.py lines 223-230),
giving the aggregated score of feature `j`: the first entry
`scores_sorted[0]` after the same sort-drop-divide steps, with no
rescaling and no clipping. -/
noncomputable def scores_aggregation (scores : List (List ℝ))
    (gamma_min : ℝ) (j : ℕ) : ℝ :=
  let n_split := scores.length
  let kmin := max 1 (Int.toNat ⌊gamma_min * (n_split : ℝ)⌋)
  let scores_sorted := (npSort (column scores j)).drop kmin
  let gamma_array := (List.range (n_split - kmin)).map
    (fun r => ((kmin + 1 + r : ℕ) : ℝ) / (n_split : ℝ))
  let divided := List.zipWith (fun x g => x / g) scores_sorted gamma_array
  divided.getD 0 0

/-- Claim C2 as written: per feature, sort, discard the `kmin` smallest,
divide the remaining sorted entry of rank `r` by `r / n_split`, take the
minimum, multiply by `1 / (1 - ln gamma_min)`, clip to `[0, 1]`. -/
noncomputable def pvalues_aggregation_claimed (pvalues : List (List ℝ))
    (gamma_min : ℝ) (j : ℕ) : ℝ :=
  let n_split := pvalues.length
  let kmin := max 1 (Int.toNat ⌊gamma_min * (n_split : ℝ)⌋)
  let sorted := npSort (column pvalues j)
  let quotients := (List.range' (kmin + 1) (n_split - kmin)).map
    (fun r => sorted.getD (r - 1) 0 / ((r : ℝ) / (n_split : ℝ)))
  npClip (listMin quotients * (1 / (1 - Real.log gamma_min))) 0 1

/-- The amended C2 formula: identical to the claim except that the final
factor is `(1 - ln gamma_min)` itself, as the code applies. -/
noncomputable def pvalues_aggregation_amended (pvalues : List (List ℝ))
    (gamma_min : ℝ) (j : ℕ) : ℝ :=
  let n_split := pvalues.length
  let kmin := max 1 (Int.toNat ⌊gamma_min * (n_split : ℝ)⌋)
  let sorted := npSort (column pvalues j)
  let quotients := (List.range' (kmin + 1) (n_split - kmin)).map
    (fun r => sorted.getD (r - 1) 0 / ((r : ℝ) / (n_split : ℝ)))
  npClip (listMin quotients * (1 - Real.log gamma_min)) 0 1

/-- The zip-with-ranks form of the divided list used by the code equals
the rank-indexed form used by the claim's wording. -/
theorem divided_eq_quotients (s : List ℝ) (kmin n : ℕ) (hs : s.length = n) :
    List.zipWith (fun x g => x / g) (s.drop kmin)
        ((List.range (n - kmin)).map
          (fun r => ((kmin + 1 + r : ℕ) : ℝ) / (n : ℝ)))
      = (List.range' (kmin + 1) (n - kmin)).map
        (fun r => s.getD (r - 1) 0 / ((r : ℝ) / (n : ℝ))) := by
  apply List.ext_getElem
  · simp [hs]
  · intro idx h1 h2
    have hidx : idx < n - kmin := by
      simpa using h2
    have hkn : kmin + idx < n := by omega
    rw [List.getElem_zipWith, List.getElem_map, List.getElem_map,
      List.getElem_range, List.getElem_range', List.getElem_drop,
      List.getD_eq_getElem _ _ (by omega : kmin + 1 + 1 * idx - 1 < s.length)]
    have hr : kmin + 1 + 1 * idx - 1 = kmin + idx := by omega
    have hr2 : kmin + 1 + idx = kmin + 1 + 1 * idx := by omega
    simp only [hr, hr2]

/-- kmin for the default `gamma_min = 1/20` and two splits is 1. -/
theorem kmin_two : max 1 (Int.toNat ⌊(1/20 : ℝ) * ((2 : ℕ) : ℝ)⌋) = 1 := by
  have : ⌊(1/20 : ℝ) * ((2 : ℕ) : ℝ)⌋ = 0 := by
    rw [Int.floor_eq_zero_iff]
    constructor <;> norm_num
  rw [this]
  rfl

theorem log_twenty_ge_one : (1 : ℝ) ≤ Real.log 20 := by
  rw [Real.le_log_iff_exp_le (by norm_num)]
  exact le_of_lt (lt_trans Real.exp_one_lt_d9 (by norm_num))

theorem log_inv_twenty : Real.log ((1 : ℝ)/20) = - Real.log 20 := by
  rw [one_div, Real.log_inv]

/-- C2 (counterexample): on the 2-split, 1-feature matrix with both
p-values 1/2, the code's aggregation (factor `1 - ln gamma_min`,
clipping to 1) differs from the claim's formula (factor
`1/(1 - ln gamma_min)`, about 0.125). -/
theorem pvalues_aggregation_counterexample :
    pvalues_aggregation [[(1/2 : ℝ)], [(1/2 : ℝ)]] (1/20) 0 ≠
      pvalues_aggregation_claimed [[(1/2 : ℝ)], [(1/2 : ℝ)]] (1/20) 0 := by
  have hcol : column [[(1/2 : ℝ)], [(1/2 : ℝ)]] 0 = [1/2, 1/2] := by
    simp [column]
  have hsort : npSort [(1/2 : ℝ), 1/2] = [1/2, 1/2] :=
    List.Sorted.insertionSort_eq (by norm_num [List.sorted_cons])
  have hlog : Real.log ((1:ℝ)/20) = - Real.log 20 := log_inv_twenty
  have h20 : (1 : ℝ) ≤ Real.log 20 := log_twenty_ge_one
  have hcode : pvalues_aggregation [[(1/2 : ℝ)], [(1/2 : ℝ)]] (1/20) 0 = 1 := by
    simp only [pvalues_aggregation, List.length_cons, List.length_nil,
      hcol, hsort, kmin_two]
    norm_num [List.range_succ, listMin, hlog]
    unfold npClip
    rw [max_eq_left (by linarith), min_eq_right (by linarith)]
  have hclaim : pvalues_aggregation_claimed [[(1/2 : ℝ)], [(1/2 : ℝ)]] (1/20) 0
      = (1/2) * (1 + Real.log 20)⁻¹ := by
    simp only [pvalues_aggregation_claimed, List.length_cons, List.length_nil,
      hcol, hsort, kmin_two]
    norm_num [List.range', listMin, hlog]
    have hd : (0:ℝ) < 1 + Real.log 20 := by linarith
    unfold npClip
    rw [max_eq_left, min_eq_left]
    · rw [← div_eq_mul_inv, div_le_one hd]
      linarith
    · exact mul_nonneg (by norm_num) (inv_nonneg.mpr (by linarith))
  rw [hcode, hclaim]
  intro hcontra
  have hd : (0 : ℝ) < 1 + Real.log 20 := by linarith
  have hlt : (1/2 : ℝ) * (1 + Real.log 20)⁻¹ < 1 := by
    rw [← div_eq_mul_inv, div_lt_one hd]
    linarith
  linarith [hcontra]

/-- C2 (amended): the aggregated p-value of each feature is exactly the
claim's sort-discard-divide-minimum formula with the corrected factor
`(1 - ln gamma_min)` and final clipping. -/
theorem pvalues_aggregation_eq_amended (pvalues : List (List ℝ)) (j : ℕ) :
    pvalues_aggregation pvalues (1/20) j =
      pvalues_aggregation_amended pvalues (1/20) j := by
  simp only [pvalues_aggregation, pvalues_aggregation_amended]
  rw [divided_eq_quotients _ _ _ (by rw [npSort_length]; simp [column])]

/-! Monotonicity of the aggregators (C8). -/

theorem forall2_getD {l₁ l₂ : List ℝ} (h : List.Forall₂ (· ≤ ·) l₁ l₂)
    (j : ℕ) : l₁.getD j 0 ≤ l₂.getD j 0 := by
  induction h generalizing j with
  | nil => simp
  | cons hab htail ih =>
    cases j with
    | zero => simpa using hab
    | succ j => simpa using ih j

theorem column_forall2 {A B : List (List ℝ)}
    (h : List.Forall₂ (List.Forall₂ (· ≤ ·)) A B) (j : ℕ) :
    List.Forall₂ (· ≤ ·) (column A j) (column B j) := by
  induction h with
  | nil => exact List.Forall₂.nil
  | cons hab _ ih => exact List.Forall₂.cons (forall2_getD hab j) ih

theorem forall2_multiset_rel {l₁ l₂ : List ℝ}
    (h : List.Forall₂ (· ≤ ·) l₁ l₂) :
    Multiset.Rel (· ≤ ·) (l₁ : Multiset ℝ) (l₂ : Multiset ℝ) := by
  induction h with
  | nil => exact Multiset.Rel.zero
  | cons hab _ ih =>
    rw [← Multiset.cons_coe, ← Multiset.cons_coe]
    exact Multiset.Rel.cons hab ih

/-- Two ascending-sorted real lists whose underlying multisets admit a
pointwise-dominating matching are pointwise dominated in order. -/
theorem sorted_rel_forall2 :
    ∀ s₁ s₂ : List ℝ, s₁.Sorted (· ≤ ·) → s₂.Sorted (· ≤ ·) →
      Multiset.Rel (· ≤ ·) (s₁ : Multiset ℝ) (s₂ : Multiset ℝ) →
      List.Forall₂ (· ≤ ·) s₁ s₂ := by
  intro s₁
  induction s₁ with
  | nil =>
    intro s₂ _ _ hrel
    rw [Multiset.coe_nil] at hrel
    have h0 := Multiset.rel_zero_left.mp hrel
    rw [Multiset.coe_eq_zero] at h0
    rw [h0]
    exact List.Forall₂.nil
  | cons a as ih =>
    intro s₂ hs1 hs2 hrel
    cases s₂ with
    | nil =>
      exfalso
      rw [Multiset.coe_nil] at hrel
      have h0 := Multiset.rel_zero_right.mp hrel
      rw [Multiset.coe_eq_zero] at h0
      exact List.noConfusion h0
    | cons c cs =>
      rw [← Multiset.cons_coe (a := c)] at hrel
      obtain ⟨x, m₁, hxc, hrel2, heq⟩ := Multiset.rel_cons_right.mp hrel
      have hax : a ≤ x := by
        have hxmem : x ∈ ((a :: as : List ℝ) : Multiset ℝ) := by
          rw [heq]; exact Multiset.mem_cons_self _ _
        rw [Multiset.mem_coe] at hxmem
        rcases List.mem_cons.mp hxmem with rfl | hxm
        · exact le_refl x
        · exact (List.sorted_cons.mp hs1).1 x hxm
      have hac : a ≤ c := le_trans hax hxc
      have hrelas : Multiset.Rel (· ≤ ·) (as : Multiset ℝ) (cs : Multiset ℝ) := by
        rw [← Multiset.cons_coe] at heq
        rcases Multiset.cons_eq_cons.mp heq with ⟨_, hm⟩ | ⟨_, t, has, hm₁⟩
        · rw [hm]; exact hrel2
        · rw [hm₁] at hrel2
          obtain ⟨y, u, hay, hrel3, hcs⟩ := Multiset.rel_cons_left.mp hrel2
          have hymem : y ∈ (cs : Multiset ℝ) := by
            rw [hcs]; exact Multiset.mem_cons_self _ _
          rw [Multiset.mem_coe] at hymem
          have hcy : c ≤ y := (List.sorted_cons.mp hs2).1 y hymem
          rw [has, hcs]
          exact Multiset.Rel.cons (le_trans hxc hcy) hrel3
      exact List.Forall₂.cons hac
        (ih cs (List.sorted_cons.mp hs1).2 (List.sorted_cons.mp hs2).2 hrelas)

/-- Sorting preserves pointwise domination. -/
theorem npSort_forall2 {l₁ l₂ : List ℝ} (h : List.Forall₂ (· ≤ ·) l₁ l₂) :
    List.Forall₂ (· ≤ ·) (npSort l₁) (npSort l₂) := by
  apply sorted_rel_forall2 _ _ (npSort_sorted l₁) (npSort_sorted l₂)
  have h1 : (↑(npSort l₁) : Multiset ℝ) = ↑l₁ :=
    Multiset.coe_eq_coe.mpr (npSort_perm l₁)
  have h2 : (↑(npSort l₂) : Multiset ℝ) = ↑l₂ :=
    Multiset.coe_eq_coe.mpr (npSort_perm l₂)
  rw [h1, h2]
  exact forall2_multiset_rel h

theorem forall2_drop {l₁ l₂ : List ℝ} (h : List.Forall₂ (· ≤ ·) l₁ l₂) :
    ∀ k, List.Forall₂ (· ≤ ·) (l₁.drop k) (l₂.drop k) := by
  induction h with
  | nil =>
    intro k
    simp
  | cons hab htail ih =>
    intro k
    cases k with
    | zero => exact List.Forall₂.cons hab htail
    | succ k => simpa using ih k

theorem forall2_zipWith_div {xs ys : List ℝ}
    (h : List.Forall₂ (· ≤ ·) xs ys) :
    ∀ gs : List ℝ, (∀ g ∈ gs, 0 ≤ g) →
      List.Forall₂ (· ≤ ·) (List.zipWith (fun x g => x / g) xs gs)
        (List.zipWith (fun x g => x / g) ys gs) := by
  induction h with
  | nil =>
    intro gs _
    exact List.Forall₂.nil
  | cons hab _ ih =>
    intro gs hgs
    cases gs with
    | nil =>
      rw [List.zipWith_nil_right, List.zipWith_nil_right]
      exact List.Forall₂.nil
    | cons g gs2 =>
      simp only [List.zipWith_cons_cons]
      refine List.Forall₂.cons ?_ (ih gs2 (fun g2 hg2 => hgs g2 (by simp [hg2])))
      rcases eq_or_lt_of_le (hgs g (by simp)) with hg0 | hg0
      · rw [← hg0]; simp
      · exact (div_le_div_iff_of_pos_right hg0).mpr hab

theorem foldl_min_mono {xs ys : List ℝ} (h : List.Forall₂ (· ≤ ·) xs ys) :
    ∀ a b : ℝ, a ≤ b → xs.foldl min a ≤ ys.foldl min b := by
  induction h with
  | nil => intro a b hab; simpa using hab
  | cons hxy _ ih =>
    intro a b hab
    simp only [List.foldl_cons]
    exact ih _ _ (min_le_min hab hxy)

theorem listMin_mono {xs ys : List ℝ} (h : List.Forall₂ (· ≤ ·) xs ys) :
    listMin xs ≤ listMin ys := by
  cases h with
  | nil => simp [listMin]
  | cons hxy htail => exact foldl_min_mono htail _ _ hxy

theorem npClip_mono {x y : ℝ} (h : x ≤ y) : npClip x 0 1 ≤ npClip y 0 1 := by
  unfold npClip
  exact min_le_min (max_le_max h (le_refl 0)) (le_refl 1)

/-- C8: both aggregators are monotone with the default
`gamma_min = 0.05`: an elementwise-dominated input matrix yields, for
every feature, a dominated aggregated p-value and a dominated
aggregated score. -/
theorem aggregation_monotone (A B : List (List ℝ))
    (hAB : List.Forall₂ (List.Forall₂ (· ≤ ·)) A B) (j : ℕ) :
    pvalues_aggregation A (1/20) j ≤ pvalues_aggregation B (1/20) j ∧
      scores_aggregation A (1/20) j ≤ scores_aggregation B (1/20) j := by
  have hlen : A.length = B.length := hAB.length_eq
  have hcol := column_forall2 hAB j
  have hsorted := npSort_forall2 hcol
  simp only [pvalues_aggregation, scores_aggregation, hlen]
  have hdrop := forall2_drop hsorted
    (max 1 (Int.toNat ⌊(1/20 : ℝ) * ((B.length : ℕ) : ℝ)⌋))
  have hgs : ∀ g ∈ (List.range (B.length -
        max 1 (Int.toNat ⌊(1/20 : ℝ) * ((B.length : ℕ) : ℝ)⌋))).map
      (fun r => ((max 1 (Int.toNat ⌊(1/20 : ℝ) * ((B.length : ℕ) : ℝ)⌋)
          + 1 + r : ℕ) : ℝ) / ((B.length : ℕ) : ℝ)), 0 ≤ g := by
    intro g hg
    obtain ⟨r, _, rfl⟩ := List.mem_map.mp hg
    positivity
  have hdiv := forall2_zipWith_div hdrop _ hgs
  constructor
  · apply npClip_mono
    apply mul_le_mul_of_nonneg_right (listMin_mono hdiv)
    have hlog : Real.log ((1:ℝ)/20) ≤ 0 :=
      Real.log_nonpos (by norm_num) (by norm_num)
    linarith
  · exact forall2_getD hdiv 0

/-- Witness for C8 on the dominated pair `[[0]] ≤ [[1]]`. -/
theorem aggregation_monotone_witness :
    List.Forall₂ (List.Forall₂ (· ≤ ·)) [[(0:ℝ)]] [[(1:ℝ)]] ∧
      (pvalues_aggregation [[(0:ℝ)]] (1/20) 0 ≤
          pvalues_aggregation [[(1:ℝ)]] (1/20) 0 ∧
        scores_aggregation [[(0:ℝ)]] (1/20) 0 ≤
          scores_aggregation [[(1:ℝ)]] (1/20) 0) :=
  have h : List.Forall₂ (List.Forall₂ (· ≤ ·)) [[(0:ℝ)]] [[(1:ℝ)]] :=
    List.Forall₂.cons (List.Forall₂.cons (by norm_num) List.Forall₂.nil)
      List.Forall₂.nil
  ⟨h, aggregation_monotone _ _ h 0⟩

/-! The projection pair built by `pp_inv` (stab_lasso.py lines 35-49).
Sparse matrices are modelled as functions of their indices over an
arbitrary field, so the same translation serves both the exact rational
evaluation of C7 and the real-valued inference model. -/

/-- Model of `len(np.unique(clust))`. -/
def n_labels (clust : List ℕ) : ℕ := clust.dedup.length

/-- The membership matrix
`coo_matrix((np.ones(p), (clust, np.arange(p))), shape=(n_labels, p))`:
entry `(c, j)` is 1 when feature `j` carries label `c`. -/
def parcellation_masks {α : Type} [Zero α] [One α] (clust : List ℕ)
    (c j : ℕ) : α :=
  if clust.getD j 0 = c ∧ j < clust.length then 1 else 0

/-- Entry `j` of the axis-0 reduction `parcellation_masks.sum(0)` the
code feeds to the normalizer: the sum over the rows of column `j`.  For
a valid labelling each column holds a single 1, so these sums are
identically 1 on valid columns. -/
def colSum (α : Type) [AddCommMonoid α] [One α] (clust : List ℕ)
    (j : ℕ) : α :=
  ∑ c in Finset.range (n_labels clust), parcellation_masks clust c j

/-- Row `c`, column `j` of `P = inv_sum_col * parcellation_masks`:
`inv_sum_col` is the diagonal matrix holding the reciprocals of the
first `n_labels` entries of the axis-0 sums. -/
def P_mat {α : Type} [Field α] (clust : List ℕ) (c j : ℕ) : α :=
  (1 / colSum α clust c) * parcellation_masks clust c j

/-- Entry `(j, c)` of `P_inv = parcellation_masks.T`. -/
def P_inv_mat {α : Type} [Field α] (clust : List ℕ) (j c : ℕ) : α :=
  parcellation_masks clust c j

/-- C7 (code evaluation at the failing input): for the labelling
`clust = [0, 0]` — two features in one cluster — the intended row
normalization is the identity (the code divides by the column sums,
which are 1), so row 0 of `P` sums to 2, not 1, and the round trip
`P_inv (P v)` of the cluster-constant vector `v = [1, 1]` yields
`[2, 2]`, not `v`. -/
theorem pp_inv_failing_input :
    (∑ j in Finset.range 2, P_mat (α := ℚ) [0, 0] 0 j) = 2 ∧
      (∑ c in Finset.range (n_labels [0, 0]),
        P_inv_mat (α := ℚ) [0, 0] 0 c *
          (∑ j in Finset.range 2, P_mat (α := ℚ) [0, 0] c j * 1)) = 2 ∧
      (∑ c in Finset.range (n_labels [0, 0]),
        P_inv_mat (α := ℚ) [0, 0] 1 c *
          (∑ j in Finset.range 2, P_mat (α := ℚ) [0, 0] c j * 1)) = 2 := by
  have hn : n_labels [0, 0] = 1 := by decide
  have hmask : ∀ j, j < 2 → parcellation_masks (α := ℚ) [0, 0] 0 j = 1 := by
    intro j hj
    interval_cases j <;> simp [parcellation_masks]
  have hcs : colSum ℚ [0, 0] 0 = 1 := by
    rw [colSum, hn, Finset.sum_range_one, hmask 0 (by norm_num)]
  have hP : ∀ j, j < 2 → P_mat (α := ℚ) [0, 0] 0 j = 1 := by
    intro j hj
    rw [P_mat, hcs, hmask j hj]
    norm_num
  have hPsum : (∑ j in Finset.range 2, P_mat (α := ℚ) [0, 0] 0 j) = 2 := by
    rw [Finset.sum_range_succ, Finset.sum_range_one,
      hP 0 (by norm_num), hP 1 (by norm_num)]
    norm_num
  have hPsum1 : (∑ j in Finset.range 2, P_mat (α := ℚ) [0, 0] 0 j * 1) = 2 := by
    rw [Finset.sum_range_succ, Finset.sum_range_one,
      hP 0 (by norm_num), hP 1 (by norm_num)]
    norm_num
  have hPinv : ∀ j, j < 2 → P_inv_mat (α := ℚ) [0, 0] j 0 = 1 := by
    intro j hj
    interval_cases j <;> simp [P_inv_mat, parcellation_masks]
  refine ⟨hPsum, ?_, ?_⟩ <;>
    rw [hn, Finset.sum_range_one, hPsum1]
  · rw [hPinv 0 (by norm_num)]; norm_num
  · rw [hPinv 1 (by norm_num)]; norm_num

/-! The split-ensemble `fit` (stab_lasso.py lines 321-416).  The
external sklearn/numpy collaborators are oracle parameters; everything
the repository itself does — the sequential trial loop threading the
one seeded generator, the subsample size, the in-place sort of each
draw, the evidence arrays and the consensus accumulation — is
explicit. -/

/-- Dot product `np.dot(u, v)` of two same-length float vectors. -/
noncomputable def dotR (u v : List ℝ) : ℝ := (List.zipWith (· * ·) u v).sum

/-- The rows of `X` at the given sample indices (`X[split]`). -/
def rowsAt (X : List (List ℝ)) (idx : List ℕ) : List (List ℝ) :=
  idx.map (fun s => X.getD s [])

/-- `(P.dot(X_s.T)).T`: each sample row projected onto the cluster
features, entry `c` being `sum_j P[c, j] * row[j]`. -/
noncomputable def projectRows (clust : List ℕ) (Xs : List (List ℝ)) :
    List (List ℝ) :=
  Xs.map (fun row => (List.range (n_labels clust)).map
    (fun c => ∑ j in Finset.range clust.length,
      P_mat (α := ℝ) clust c j * row.getD j 0))

/-- The back-projection `P_inv.dot(w)` of a cluster vector to the
per-feature scale. -/
noncomputable def backProject (clust : List ℕ) (w : List ℝ) : List ℝ :=
  (List.range clust.length).map
    (fun j => ∑ c in Finset.range (n_labels clust),
      P_inv_mat (α := ℝ) clust j c * w.getD c 0)

/-- The data-dependent penalty
`theta * np.max(np.abs(np.dot(X_proj.T, y_splitted))) / n`. -/
noncomputable def lassoPenalty (theta : ℝ) (Xp : List (List ℝ))
    (ys : List ℝ) (k n : ℕ) : ℝ :=
  theta * listMax ((List.range k).map (fun c => |dotR (column Xp c) ys|))
    / (n : ℝ)

/-- Elementwise vector addition (`self._soln += beta`). -/
noncomputable def vecAdd (u v : List ℝ) : List ℝ := List.zipWith (· + ·) u v

/-- The external collaborators `fit` delegates to, as explicit oracles:
the seeded generator advanced by `RandomState.choice` (`choice st n
size` returns the drawn index list together with the successor state),
the two `StandardScaler` transforms, the Ward `FeatureAgglomeration`
labelling of a subsample, and the sklearn `Lasso` coefficient fit. -/
structure FitEnv (ρ : Type) where
  choice : ρ → ℕ → ℕ → List ℕ × ρ
  scaleX : List (List ℝ) → List (List ℝ)
  scaleY : List ℝ → List ℝ
  cluster : List (List ℝ) → ℕ → List ℕ
  lasso : List (List ℝ) → List ℝ → ℝ → List ℝ

/-- The hyperparameters fixed by `StabilityLasso.__init__`, together
with the mutable generator state the constructor stores on the model
object (`n_clusters` is taken as already resolved to a count, as the
claims under test do not involve the string dispatch). -/
structure StabilityLasso (ρ : Type) where
  theta : ℝ
  n_split : ℕ
  ratio_split : ℚ
  n_clusters : ℕ
  generator : ρ

/-- Everything `fit` writes: the three evidence arrays, the consensus
coefficient `_soln`/`coef_`, and the advanced generator state. -/
structure FitResult (ρ : Type) where
  beta_array : List (List ℝ)
  split_array : List (List ℕ)
  clust_array : List (List ℕ)
  soln : List ℝ
  generator : ρ

/-- The sequential trial loop of `fit`, by recursion on the number of
remaining trials, threading the generator state exactly as the loop
advances the one object; returns the evidence arrays (current trial
first), the accumulated consensus sum, and the final generator state. -/
noncomputable def fitTrials {ρ : Type} (env : FitEnv ρ) (theta : ℝ)
    (n_clusters : ℕ) (X : List (List ℝ)) (y : List ℝ) (n size_split : ℕ) :
    ℕ → ρ → List (List ℝ) × List (List ℕ) × List (List ℕ) × List ℝ × ρ
  | 0, g => ([], [], [], List.replicate (X.headD []).length 0, g)
  | t + 1, g =>
    let drawn := env.choice g n size_split
    let split := (drawn.1).insertionSort (· ≤ ·)
    let y_splitted := split.map (fun s => y.getD s 0)
    let X_splitted := rowsAt X split
    let labels := env.cluster X_splitted n_clusters
    let X_proj := projectRows labels X_splitted
    let alpha := lassoPenalty theta X_proj y_splitted (n_labels labels) n
    let beta_proj := env.lasso X_proj y_splitted alpha
    let beta := backProject labels beta_proj
    let rest := fitTrials env theta n_clusters X y n size_split t drawn.2
    (beta_proj :: rest.1, split :: rest.2.1, labels :: rest.2.2.1,
      vecAdd beta rest.2.2.2.1, rest.2.2.2.2)

/-- Translation of `StabilityLasso.fit` (stab_lasso.py lines 359-416):
standardize, resolve the subsample size, run the `n_split` sequential
trials, divide the accumulated consensus sum by `n_split`.  The float
size `n * ratio_split` is truncated to an integer at numpy's use sites,
modelled by the floor (the values are nonnegative).  The function is
total: the source performs no configuration validation and has no
failure branch. -/
noncomputable def fit {ρ : Type} (env : FitEnv ρ) (m : StabilityLasso ρ)
    (X0 : List (List ℝ)) (y0 : List ℝ) : FitResult ρ :=
  let y := env.scaleY y0
  let X := env.scaleX X0
  let n := X.length
  let size_split := Int.toNat ⌊(n : ℚ) * m.ratio_split⌋
  let res := fitTrials env m.theta m.n_clusters X y n size_split
    m.n_split m.generator
  { beta_array := res.1
    split_array := res.2.1
    clust_array := res.2.2.1
    soln := (res.2.2.2.1).map (fun x => x / (m.n_split : ℝ))
    generator := res.2.2.2.2 }

theorem fitTrials_lengths {ρ : Type} (env : FitEnv ρ) (theta : ℝ)
    (n_clusters : ℕ) (X : List (List ℝ)) (y : List ℝ) (n size_split : ℕ) :
    ∀ t g, (fitTrials env theta n_clusters X y n size_split t g).1.length = t ∧
      (fitTrials env theta n_clusters X y n size_split t g).2.1.length = t ∧
      (fitTrials env theta n_clusters X y n size_split t g).2.2.1.length = t := by
  intro t
  induction t with
  | zero => intro g; exact ⟨rfl, rfl, rfl⟩
  | succ t ih =>
    intro g
    obtain ⟨h1, h2, h3⟩ := ih ((env.choice g n size_split).2)
    simp only [fitTrials, List.length_cons]
    exact ⟨by rw [h1], by rw [h2], by rw [h3]⟩

/-- C4 (amended): `fit` performs no configuration validation and has no
error path: for every environment, model and input — in particular when
the selection-subset size is smaller than `n_clusters_` — it executes
all `n_split` trials and populates every evidence array. -/
theorem fit_total_populates {ρ : Type} (env : FitEnv ρ)
    (m : StabilityLasso ρ) (X0 : List (List ℝ)) (y0 : List ℝ) :
    (fit env m X0 y0).beta_array.length = m.n_split ∧
      (fit env m X0 y0).split_array.length = m.n_split ∧
      (fit env m X0 y0).clust_array.length = m.n_split := by
  simp only [fit]
  exact fitTrials_lengths env m.theta m.n_clusters (env.scaleX X0)
    (env.scaleY y0) (env.scaleX X0).length _ m.n_split m.generator

/-- A concrete oracle environment over a counter state: `choice` draws
the first `size` indices (a legal without-replacement draw), the
scalers are identities, clustering gives every feature its own label,
and the lasso returns a zero coefficient per column. -/
noncomputable def envRange : FitEnv ℕ :=
  ⟨fun g _ k => (List.range k, g + 1),
    fun X => X, fun y => y,
    fun Xs _ => List.range (Xs.headD []).length,
    fun Xp _ _ => (Xp.headD []).map (fun _ => 0)⟩

/-- A concrete oracle environment whose draw depends on the generator
state: state `g` shifts the drawn indices by `g` modulo `n`, as a stand
in for the advancing Mersenne-Twister stream. -/
noncomputable def envShift : FitEnv ℕ :=
  ⟨fun g n k => ((List.range k).map (fun t => (t + g) % n), g + 1),
    fun X => X, fun y => y,
    fun Xs _ => List.range (Xs.headD []).length,
    fun Xp _ _ => (Xp.headD []).map (fun _ => 0)⟩

/-- C4 (counterexample): a configuration with selection-subset size 1
(`n = 2`, `ratio_split = 1/2`) strictly below `n_clusters_ = 3` does not
raise and does not leave the model unfit: `fit` runs its trial and
stores the evidence. -/
theorem fit_underdetermined_no_error :
    Int.toNat ⌊((2 : ℕ) : ℚ) * (1/2 : ℚ)⌋ < 3 ∧
      (fit envRange ⟨0, 1, 1/2, 3, 0⟩ [[1], [1]] [0, 0]).split_array = [[0]] ∧
      (fit envRange ⟨0, 1, 1/2, 3, 0⟩ [[1], [1]] [0, 0]).clust_array.length
        = 1 := by
  refine ⟨by norm_num, ?_, ?_⟩ <;>
  · simp only [fit, envRange]
    norm_num
    simp only [fitTrials, envRange]
    norm_num [List.insertionSort, List.orderedInsert]

theorem fitTrials_split_mem {ρ : Type} (env : FitEnv ρ) (theta : ℝ)
    (n_clusters : ℕ) (X : List (List ℝ)) (y : List ℝ) (n size_split : ℕ)
    (hchoice : ∀ g, (env.choice g n size_split).1.length = size_split ∧
      (env.choice g n size_split).1.Nodup ∧
      ∀ x ∈ (env.choice g n size_split).1, x < n) :
    ∀ t g s, s ∈ (fitTrials env theta n_clusters X y n size_split t g).2.1 →
      s.length = size_split ∧ s.Nodup ∧ s.Sorted (· ≤ ·) ∧
        ∀ x ∈ s, x < n := by
  intro t
  induction t with
  | zero =>
    intro g s hs
    simp [fitTrials] at hs
  | succ t ih =>
    intro g s hs
    simp only [fitTrials] at hs
    rcases List.mem_cons.mp hs with rfl | hs2
    · obtain ⟨hl, hnd, hmem⟩ := hchoice g
      have hperm := List.perm_insertionSort ((· ≤ ·) : ℕ → ℕ → Prop)
        (env.choice g n size_split).1
      refine ⟨hperm.length_eq.trans hl, hperm.symm.nodup hnd,
        List.sorted_insertionSort _ _, ?_⟩
      intro x hx
      exact hmem x (hperm.mem_iff.mp hx)
    · exact ih _ _ hs2

/-- C5 (amended): under numpy's contract for
`RandomState.choice(n, size, replace=False)` — a draw of exactly `size`
distinct indices below `n` whenever `size ≤ n` — every stored
`split_array[i]` is an ascending duplicate-free list of sample indices
whose length is `floor(n * ratio_split)`: the float size
`n * ratio_split` is truncated by numpy, not rounded. -/
theorem fit_split_array_spec {ρ : Type} (env : FitEnv ρ)
    (m : StabilityLasso ρ) (X0 : List (List ℝ)) (y0 : List ℝ)
    (hchoice : ∀ g n k, k ≤ n → ((env.choice g n k).1.length = k ∧
      (env.choice g n k).1.Nodup ∧ ∀ x ∈ (env.choice g n k).1, x < n))
    (_hr0 : 0 ≤ m.ratio_split) (hr1 : m.ratio_split ≤ 1) :
    ∀ s ∈ (fit env m X0 y0).split_array,
      s.length = Int.toNat ⌊((env.scaleX X0).length : ℚ) * m.ratio_split⌋ ∧
        s.Nodup ∧ s.Sorted (· ≤ ·) ∧
        ∀ x ∈ s, x < (env.scaleX X0).length := by
  have hsize : Int.toNat ⌊((env.scaleX X0).length : ℚ) * m.ratio_split⌋ ≤
      (env.scaleX X0).length := by
    have h1 : (((env.scaleX X0).length : ℚ)) * m.ratio_split ≤
        (((env.scaleX X0).length : ℕ) : ℚ) :=
      mul_le_of_le_one_right (by positivity) hr1
    have h2 : ⌊(((env.scaleX X0).length : ℕ) : ℚ) * m.ratio_split⌋ ≤
        ((env.scaleX X0).length : ℤ) := by
      calc ⌊(((env.scaleX X0).length : ℕ) : ℚ) * m.ratio_split⌋
          ≤ ⌊(((env.scaleX X0).length : ℕ) : ℚ)⌋ := Int.floor_le_floor h1
        _ = ((env.scaleX X0).length : ℤ) := Int.floor_natCast _
    exact Int.toNat_le.mpr h2
  intro s hs
  simp only [fit] at hs
  exact fitTrials_split_mem env m.theta m.n_clusters (env.scaleX X0)
    (env.scaleY y0) _ _ (fun g => hchoice g _ _ hsize)
    m.n_split m.generator s hs

/-- Witness for C5 with the `envRange` oracles, one split, two samples
and ratio 1/2. -/
theorem fit_split_array_spec_witness :
    (∀ g n k, k ≤ n → ((envRange.choice g n k).1.length = k ∧
        (envRange.choice g n k).1.Nodup ∧
        ∀ x ∈ (envRange.choice g n k).1, x < n)) ∧
      (0 : ℚ) ≤ (1/2 : ℚ) ∧ (1/2 : ℚ) ≤ 1 ∧
      ∀ s ∈ (fit envRange ⟨0, 1, 1/2, 1, 0⟩ [[1], [1]] [0, 0]).split_array,
        s.length =
            Int.toNat ⌊((envRange.scaleX [[1], [1]]).length : ℚ) * (1/2 : ℚ)⌋ ∧
          s.Nodup ∧ s.Sorted (· ≤ ·) ∧
          ∀ x ∈ s, x < (envRange.scaleX [[1], [1]]).length :=
  have hchoice : ∀ g n k, k ≤ n → ((envRange.choice g n k).1.length = k ∧
      (envRange.choice g n k).1.Nodup ∧
      ∀ x ∈ (envRange.choice g n k).1, x < n) := by
    intro g n k hk
    refine ⟨by simp [envRange], by simp [envRange, List.nodup_range], ?_⟩
    intro x hx
    simp only [envRange] at hx
    rw [List.mem_range] at hx
    omega
  ⟨hchoice, by norm_num, by norm_num,
    fit_split_array_spec envRange ⟨0, 1, 1/2, 1, 0⟩ [[1], [1]] [0, 0]
      hchoice (by norm_num) (by norm_num)⟩

/-- C5 (counterexample): with `n = 5` samples and `ratio_split = 0.3`
the stored split has `floor(1.5) = 1` element, while the claim's
`round(ratio_split * n) = round(1.5) = 2`. -/
theorem fit_split_size_not_round :
    ((fit envRange ⟨0, 1, 3/10, 1, 0⟩ [[1], [1], [1], [1], [1]]
        [0, 0, 0, 0, 0]).split_array.getD 0 []).length = 1 ∧
      round (((5 : ℕ) : ℚ) * (3/10 : ℚ)) = 2 := by
  constructor
  · simp only [fit, envRange]
    norm_num
    simp only [fitTrials, envRange]
    norm_num [List.insertionSort, List.orderedInsert]
  · norm_num [round_eq]

/-- C6 (amended, the reproducibility part): `fit` is a deterministic
function of the stored hyperparameters, the stored generator state, the
environment and the inputs: two models with identical fields fitted on
identical data give bit-identical results — in particular two freshly
seeded models behave identically on their first `fit` calls. -/
theorem fit_deterministic {ρ : Type} (env : FitEnv ρ)
    (m₁ m₂ : StabilityLasso ρ) (X0 : List (List ℝ)) (y0 : List ℝ)
    (ht : m₁.theta = m₂.theta) (hn : m₁.n_split = m₂.n_split)
    (hr : m₁.ratio_split = m₂.ratio_split)
    (hk : m₁.n_clusters = m₂.n_clusters)
    (hg : m₁.generator = m₂.generator) :
    fit env m₁ X0 y0 = fit env m₂ X0 y0 := by
  cases m₁
  cases m₂
  simp only at ht hn hr hk hg
  subst ht
  subst hn
  subst hr
  subst hk
  subst hg
  rfl

/-- Witness for C6's determinism theorem at a concrete model pair. -/
theorem fit_deterministic_witness :
    ((0:ℝ) = (0:ℝ) ∧ (1:ℕ) = 1 ∧ (1/2 : ℚ) = 1/2 ∧ (1:ℕ) = 1 ∧
        (0:ℕ) = 0) ∧
      fit envRange ⟨0, 1, 1/2, 1, 0⟩ [[1], [1]] [0, 0] =
        fit envRange ⟨0, 1, 1/2, 1, 0⟩ [[1], [1]] [0, 0] :=
  ⟨⟨rfl, rfl, rfl, rfl, rfl⟩,
    fit_deterministic envRange ⟨0, 1, 1/2, 1, 0⟩ ⟨0, 1, 1/2, 1, 0⟩
      [[1], [1]] [0, 0] rfl rfl rfl rfl rfl⟩

/-- C6 (counterexample): the generator is created once in `__init__`
and advances across `fit` calls; a second `fit` on the same model
object resumes from the advanced state and draws a different split, so
two successive calls on one model are not bit-identical. -/
theorem fit_refit_differs :
    (fit envShift
        ⟨0, 1, 1/2, 1,
          (fit envShift ⟨0, 1, 1/2, 1, 0⟩ [[1], [1]] [0, 0]).generator⟩
        [[1], [1]] [0, 0]).split_array ≠
      (fit envShift ⟨0, 1, 1/2, 1, 0⟩ [[1], [1]] [0, 0]).split_array := by
  have h1 : (fit envShift ⟨0, 1, 1/2, 1, 0⟩ [[1], [1]] [0, 0]).generator
      = 1 := by
    simp only [fit, envShift]
    norm_num
    simp only [fitTrials, envShift]
  have h2 : (fit envShift ⟨0, 1, 1/2, 1, 0⟩ [[1], [1]] [0, 0]).split_array
      = [[0]] := by
    simp only [fit, envShift]
    norm_num
    simp only [fitTrials, envShift]
    norm_num [List.insertionSort, List.orderedInsert]
  have h3 : (fit envShift ⟨0, 1, 1/2, 1, 1⟩ [[1], [1]] [0, 0]).split_array
      = [[1]] := by
    simp only [fit, envShift]
    norm_num
    simp only [fitTrials, envShift]
    norm_num [List.insertionSort, List.orderedInsert]
  rw [h1, h2, h3]
  simp

/-! Split-based multivariate inference (stab_lasso.py lines 52-122).
The statsmodels refit `sm.OLS(y_test, X_model).fit().pvalues` is an
oracle `ols` mapping the design matrix and the response to the vector
of per-coefficient p-values. -/

/-- The held-out row indices `~split` of one split. -/
def heldOut (n : ℕ) (split : List ℕ) : List ℕ :=
  (List.range n).filter (fun s => decide (s ∉ split))

/-- One row of `multivariate_split_pval` (stab_lasso.py lines 57-79):
restrict to held-out rows, recompute the projection from the stored
labels, select the support of the stored lasso coefficients, refit by
the OLS oracle on the projected held-out data restricted to the
support, Bonferroni-scale and clip the returned p-values onto the
support clusters — non-support clusters keep the initial value 1 — and
broadcast per cluster to all member features through `P_inv`. -/
noncomputable def splitPvalRow (ols : List (List ℝ) → List ℝ → List ℝ)
    (X : List (List ℝ)) (y : List ℝ) (n_clusters : ℕ)
    (beta_proj : List ℝ) (split : List ℕ) (clust : List ℕ) : List ℝ :=
  let held := heldOut X.length split
  let y_test := held.map (fun s => y.getD s 0)
  let X_test := rowsAt X held
  let model_proj := (List.range n_clusters).filter
    (fun c => decide (beta_proj.getD c 0 ^ 2 > 0))
  let model_proj_size := model_proj.length
  let X_test_proj := projectRows clust X_test
  let X_model := X_test_proj.map
    (fun row => model_proj.map (fun c => row.getD c 0))
  let res := ols X_model y_test
  let pvalues_proj : ℕ → ℝ := fun c =>
    if c ∈ model_proj then
      npClip ((model_proj_size : ℝ) * res.getD (model_proj.indexOf c) 0) 0 1
    else 1
  (List.range clust.length).map
    (fun j => ∑ c in Finset.range (n_labels clust),
      P_inv_mat (α := ℝ) clust j c * pvalues_proj c)

/-- One row of `multivariate_split_scores` (stab_lasso.py lines
93-116): the same refit, but the support clusters receive
`model_size * pvalue` with no clipping, where `model_size` counts the
nonzero back-projected coefficients over all p features, and
non-support clusters receive the uninformative value `p`. -/
noncomputable def splitScoreRow (ols : List (List ℝ) → List ℝ → List ℝ)
    (X : List (List ℝ)) (y : List ℝ) (n_clusters : ℕ)
    (beta_proj : List ℝ) (split : List ℕ) (clust : List ℕ) : List ℝ :=
  let p := (X.headD []).length
  let held := heldOut X.length split
  let y_test := held.map (fun s => y.getD s 0)
  let X_test := rowsAt X held
  let model_proj := (List.range n_clusters).filter
    (fun c => decide (beta_proj.getD c 0 ^ 2 > 0))
  let beta := backProject clust beta_proj
  let model_size := (beta.filter (fun b => decide (b ^ 2 > 0))).length
  let X_test_proj := projectRows clust X_test
  let X_model := X_test_proj.map
    (fun row => model_proj.map (fun c => row.getD c 0))
  let res := ols X_model y_test
  let scores_proj : ℕ → ℝ := fun c =>
    if c ∈ model_proj then
      (model_size : ℝ) * res.getD (model_proj.indexOf c) 0
    else (p : ℝ)
  (List.range clust.length).map
    (fun j => ∑ c in Finset.range (n_labels clust),
      P_inv_mat (α := ℝ) clust j c * scores_proj c)

/-- Translation of `multivariate_split_pval` (stab_lasso.py lines
52-85), as the `n_split × p` matrix of per-split p-values. -/
noncomputable def multivariate_split_pval
    (ols : List (List ℝ) → List ℝ → List ℝ)
    (X : List (List ℝ)) (y : List ℝ) (n_split n_clusters : ℕ)
    (beta_array : List (List ℝ)) (split_array clust_array : List (List ℕ)) :
    List (List ℝ) :=
  (List.range n_split).map (fun i =>
    splitPvalRow ols X y n_clusters (beta_array.getD i [])
      (split_array.getD i []) (clust_array.getD i []))

/-- Translation of `multivariate_split_scores` (stab_lasso.py lines
88-122), as the `n_split × p` matrix of per-split scores. -/
noncomputable def multivariate_split_scores
    (ols : List (List ℝ) → List ℝ → List ℝ)
    (X : List (List ℝ)) (y : List ℝ) (n_split n_clusters : ℕ)
    (beta_array : List (List ℝ)) (split_array clust_array : List (List ℕ)) :
    List (List ℝ) :=
  (List.range n_split).map (fun i =>
    splitScoreRow ols X y n_clusters (beta_array.getD i [])
      (split_array.getD i []) (clust_array.getD i []))

theorem range_map_getD (f : ℕ → ℝ) (p j : ℕ) (hj : j < p) :
    ((List.range p).map f).getD j 0 = f j := by
  rw [List.getD_eq_getElem _ _ (by simpa using hj), List.getElem_map,
    List.getElem_range]

/-- C9 (counterexample): a split whose OLS refit is degenerate — the
support size (1) equals the held-out sample count (1), the claim's
numerical-failure condition — is not replaced by the sentinel row of
ones: the oracle output (0 here; NaN from statsmodels) is scaled,
clipped and broadcast verbatim, giving the row `[0]`, not `[1]`. -/
theorem multivariate_split_pval_no_sentinel :
    multivariate_split_pval (fun _ _ => [0]) [[1], [1]] [0, 0] 1 1
        [[1]] [[0]] [[0]] = [[0]] ∧ (0 : ℝ) ≠ 1 := by
  constructor
  · have hheld : heldOut 2 [0] = [1] := by decide
    have hn : n_labels [0] = 1 := by decide
    simp only [multivariate_split_pval, splitPvalRow, List.length_cons,
      List.length_nil, hheld, hn]
    norm_num [List.range_succ, rowsAt, projectRows, P_inv_mat, P_mat,
      colSum, parcellation_masks, npClip, Finset.sum_range_succ]
    rw [hn, Finset.sum_range_one]
    norm_num
  · norm_num

/-- C9 (amended): the inference code contains no per-split failure
handling — the OLS oracle output is used identically on every split —
and the constants 1 (p-value) and p = feature count (score) are the
defaults of NON-support clusters of every split, not sentinels for
failed splits: a feature whose cluster carries a zero stored
coefficient receives exactly 1 from the p-value row and exactly `p`
from the score row, whatever the oracle returns. -/
theorem multivariate_split_nonsupport_default
    (ols : List (List ℝ) → List ℝ → List ℝ) (X : List (List ℝ))
    (y : List ℝ) (n_clusters : ℕ) (beta_proj : List ℝ) (split : List ℕ)
    (clust : List ℕ) (j : ℕ) (hj : j < clust.length)
    (hcl : clust.getD j 0 < n_labels clust)
    (hns : ¬ beta_proj.getD (clust.getD j 0) 0 ^ 2 > 0) :
    (splitPvalRow ols X y n_clusters beta_proj split clust).getD j 0 = 1 ∧
      (splitScoreRow ols X y n_clusters beta_proj split clust).getD j 0 =
        ((X.headD []).length : ℝ) := by
  have hrow : ∀ proj : ℕ → ℝ,
      (∑ c in Finset.range (n_labels clust),
        P_inv_mat (α := ℝ) clust j c * proj c) = proj (clust.getD j 0) := by
    intro proj
    rw [Finset.sum_eq_single (clust.getD j 0)]
    · rw [P_inv_mat, parcellation_masks, if_pos ⟨rfl, hj⟩, one_mul]
    · intro c _ hne
      rw [P_inv_mat, parcellation_masks, if_neg, zero_mul]
      intro hcon
      exact hne hcon.1.symm
    · intro hnotin
      exact absurd (Finset.mem_range.mpr hcl) hnotin
  have hmem : clust.getD j 0 ∉ (List.range n_clusters).filter
      (fun c => decide (beta_proj.getD c 0 ^ 2 > 0)) := by
    intro hmem
    rw [List.mem_filter] at hmem
    exact hns (by simpa using hmem.2)
  constructor
  · simp only [splitPvalRow]
    rw [range_map_getD _ _ _ hj, hrow, if_neg hmem]
  · simp only [splitScoreRow]
    rw [range_map_getD _ _ _ hj, hrow, if_neg hmem]

/-- Witness for the amended C9 theorem at a concrete non-support
feature. -/
theorem multivariate_split_nonsupport_default_witness :
    (0 < ([0] : List ℕ).length ∧ ([0] : List ℕ).getD 0 0 < n_labels [0] ∧
        ¬ ([(0:ℝ)]).getD (([0] : List ℕ).getD 0 0) 0 ^ 2 > 0) ∧
      ((splitPvalRow (fun _ _ => []) [[1]] [0] 1 [0] [] [0]).getD 0 0 = 1 ∧
        (splitScoreRow (fun _ _ => []) [[1]] [0] 1 [0] [] [0]).getD 0 0 =
          ((([[(1:ℝ)]]).headD []).length : ℝ)) :=
  ⟨⟨by norm_num, by decide, by norm_num⟩,
    multivariate_split_nonsupport_default (fun _ _ => []) [[1]] [0] 1 [0]
      [] [0] 0 (by norm_num) (by decide) (by norm_num)⟩

end StabLasso
